import Mathlib

/-!
Shallow embedding of the csv-cpp single-header library (src/csv.hpp,
src/prototypes.hpp).  Buffers are modelled as `List Char`, streams as
explicit state, C++ exceptions as `Except CsvErr`, and 32-bit unsigned
arithmetic as `Nat` taken modulo `2 ^ 32` where the source wraps.
-/

/-- Error kinds thrown by the library or by the standard-library calls it
makes: `csv::error::io_exception`, `std::invalid_argument` (from `stoi`),
`std::out_of_range` (from `stoi`), `std::underflow_error` (thrown by
`single_type_prototype::serialize`), `csv::error::not_implemented`. -/
inductive CsvErr where
  | ioError
  | invalidArgument
  | outOfRange
  | underflow
  | notImplemented
  deriving DecidableEq, Repr

/-- The object returned when reading csv files (src/csv.hpp lines 127-131). -/
structure Document (α : Type) where
  header : List (List Char)
  rows : List α
  deriving DecidableEq, Repr

/-- Reading-mode selector (src/csv.hpp lines 324-327). -/
inductive Method where
  | DEFAULT
  | ASYNC
  deriving DecidableEq, Repr

deriving instance DecidableEq for Except

/-- One `std::getline(stream, line, d)` call: extracts characters up to the
first `d` (which is consumed and discarded) or to the end of the stream,
returning the extracted line and the unread remainder. -/
def getlineOnce (d : Char) : List Char → List Char × List Char
  | [] => ([], [])
  | c :: cs =>
    if c = d then ([], cs)
    else
      let p := getlineOnce d cs
      (c :: p.1, p.2)

/-- A `while (std::getline(stream, cell, d))` loop: splits a buffer at every
`d`.  The final segment is produced only when at least one character was
extracted for it, matching `std::getline`'s failure condition at end of
stream (so a trailing `d` does not yield a trailing empty segment). -/
def splitOnChar (d : Char) : List Char → List (List Char)
  | [] => []
  | c :: cs =>
    if c = d then [] :: splitOnChar d cs
    else
      match splitOnChar d cs with
      | [] => [[c]]
      | l :: ls => (c :: l) :: ls

/-- Splitting a buffer into lines with `std::getline(stream, line)`. -/
def getLines : List Char → List (List Char) := splitOnChar '\n'

/-- Model of `csv::read_header_from_buffer` (src/csv.hpp lines 87-99):
one `getline` for the header line, then a cell-splitting loop on the
delimiter.  Returns the parsed header and the unread rest of the buffer. -/
def read_header_from_buffer (d : Char) (buf : List Char) :
    List (List Char) × List Char :=
  let p := getlineOnce '\n' buf
  (splitOnChar d p.1, p.2)

/-- Model of `csv::read_from_buffer` (src/csv.hpp lines 141-159): read the
header, then deserialize each remaining line in order.  `f` is the
prototype's `deserialize` applied to one line. -/
def read_from_buffer (f : List Char → α) (d : Char) (buf : List Char) :
    Document α :=
  let p := read_header_from_buffer d buf
  { header := p.1, rows := (getLines p.2).map f }

/-- Model of the boundary-realignment loop of `csv::read_async_from_buffer`
(src/csv.hpp lines 293-298): after `readsome`, the code does
`char c = buffer.get();` and then `while (c != '\n' && in_avail())` appends
`c` and reads the next character.  Consequences kept faithfully: the
terminating newline is consumed but never appended, and when the buffer
runs out before a newline is found the last character read is dropped
(the loop exits before appending it).  Returns (appended extension, unread
remainder). -/
def extendChunk : List Char → List Char × List Char
  | [] => ([], [])
  | c :: rest =>
    if c = '\n' then ([], rest)
    else
      match rest with
      | [] => ([], [])
      | r :: rs =>
        let p := extendChunk (r :: rs)
        (c :: p.1, p.2)

/-- Fuelled model of the chunk-production loop of
`csv::read_async_from_buffer` (src/csv.hpp lines 285-307):
`while (in_avail()) take a readsome block of csz bytes, extend it to the
next line boundary with extendChunk, emit the chunk`.  Each iteration
consumes at least one character, so fuel `body.length` is always enough. -/
def splitChunksF : Nat → Nat → List Char → List (List Char)
  | 0, _, _ => []
  | _ + 1, _, [] => []
  | fuel + 1, csz, c :: cs =>
    let body := c :: cs
    let p := extendChunk (body.drop csz)
    (body.take csz ++ p.1) :: splitChunksF fuel csz p.2

/-- The chunk splitter of `csv::read_async_from_buffer` with target block
size `csz` (the source instantiates `csz = line_length_hint *
line_chunk_size = 32768`). -/
def splitChunks (csz : Nat) (body : List Char) : List (List Char) :=
  splitChunksF body.length csz body

/-- The fixed readsome block size `line_length_hint * line_chunk_size`
(src/csv.hpp lines 26-27). -/
def lineChunkTotal : Nat := 1024 * 32

/-- Model of `csv::read_async_from_buffer` (src/csv.hpp lines 258-316):
read the header, split the rest into line-aligned chunks, deserialize every
line of each chunk into that chunk's pre-created storage slot, and
concatenate the slots in creation (chunk) order.  Worker scheduling cannot
change this value: each slot is written by exactly one job and the final
concatenation iterates slots in creation order (see `runJobs` for the
explicit schedule-indexed model). -/
def read_async_from_buffer (f : List Char → α) (d : Char) (csz : Nat)
    (buf : List Char) : Document α :=
  let p := read_header_from_buffer d buf
  { header := p.1,
    rows := ((splitChunks csz p.2).map (fun ch => (getLines ch).map f)).flatten }

/-- Model of `csv::get_buffer_from_file` (src/csv.hpp lines 63-74): the
file system is abstracted by whether the path can be opened (`canOpen`)
and, when it can, by the bytes it holds. -/
def get_buffer_from_file (canOpen : Bool) (contents : List Char) :
    Except CsvErr (List Char) :=
  if canOpen then .ok contents else .error .ioError

/-- Model of `csv::read_from_file` (src/csv.hpp lines 329-347): open the
file (an io_exception aborts everything before any worker thread exists),
then dispatch on the reading method. -/
def read_from_file (f : List Char → α) (d : Char) (csz : Nat)
    (canOpen : Bool) (contents : List Char) (method : Method) :
    Except CsvErr (Document α) :=
  (get_buffer_from_file canOpen contents).map fun buf =>
    match method with
    | .DEFAULT => read_from_buffer f d buf
    | .ASYNC => read_async_from_buffer f d csz buf

/-- A body made of the given lines, each terminated by a newline (the file
format of the spec: one record per line, lines terminated by a newline). -/
def bodyOf (ls : List (List Char)) : List Char :=
  (ls.map (fun l => l ++ ['\n'])).flatten

/-- Well-formed record lines: each line is non-empty and contains no
newline character. -/
def goodLines (ls : List (List Char)) : Prop :=
  ∀ l ∈ ls, l ≠ [] ∧ '\n' ∉ l

instance (ls : List (List Char)) : Decidable (goodLines ls) := by
  unfold goodLines; infer_instance

/-- Explicit model of the worker pool of `csv::read_async_from_buffer`
(src/csv.hpp lines 195-253, 300-306): one storage slot per chunk is
created in chunk-production order (`storages.push_back` before `enqueue`);
processing job `i` decodes chunk `i` into slot `i` and touches nothing
else.  `order` is the order in which the jobs complete across the pool. -/
def runJobs (dec : List Char → List α) (chunks : List (List Char))
    (order : List Nat) : List (List α) :=
  order.foldl
    (fun slots i =>
      match chunks[i]? with
      | some ch => slots.set i (dec ch)
      | none => slots)
    (List.replicate chunks.length ([] : List α))

/-- The state of a `std::ostream`: the characters written so far and the
fail bit.  Once the fail bit is set every subsequent operation is a
no-op. -/
structure OStream where
  data : List Char
  failed : Bool
  deriving DecidableEq, Repr

/-- `stream << cs` on an output stream: appends unless the stream has
failed. -/
def OStream.write (s : OStream) (cs : List Char) : OStream :=
  if s.failed then s else { s with data := s.data ++ cs }

/-- `stream.seekp(-1, cur) << std::endl` on an output stream: moving the
put position one step back from position 0 fails (sets the fail bit);
otherwise the last written character is overwritten with a newline and
writing continues after it. -/
def OStream.seekpEndl (s : OStream) : OStream :=
  if s.failed then s
  else if s.data = [] then { s with failed := true }
  else { s with data := s.data.dropLast ++ ['\n'] }

/-- `buffer.seekp(-1, cur) << std::endl` on an in-memory `stringstream`
holding `l`: replaces the last character with a newline.  In every call
site of the library the buffer is non-empty at this point; the `[]` case
(a failed seek that leaves the buffer unchanged) is kept for totality. -/
def seekpEndlL (l : List Char) : List Char :=
  if l = [] then l else l.dropLast ++ ['\n']

/-- Model of `csv::write_buffer_into_file` (src/csv.hpp lines 76-85). -/
def write_buffer_into_file (canOpen : Bool) (buf : List Char) :
    Except CsvErr (List Char) :=
  if canOpen then .ok buf else .error .ioError

/-- A loop that applies a throwing operation to every element, a state
threaded through; the first exception aborts the loop and propagates. -/
def foldExcept (g : σ → α → Except CsvErr σ) : σ → List α → Except CsvErr σ
  | b, [] => .ok b
  | b, a :: l =>
    match g b a with
    | .error e => .error e
    | .ok b2 => foldExcept g b2 l

/-- A loop that converts every element, collecting the results in order;
the first exception aborts the loop and propagates, discarding the partial
results. -/
def mapExcept (g : α → Except CsvErr β) : List α → Except CsvErr (List β)
  | [] => .ok []
  | a :: l =>
    match g a with
    | .error e => .error e
    | .ok b =>
      match mapExcept g l with
      | .error e => .error e
      | .ok bs => .ok (b :: bs)

/-- Model of `csv::write` (src/csv.hpp lines 163-189): build the buffer
(header names each followed by the delimiter, with the trailing delimiter
overwritten by a newline, only when a header is given; then every row
serialized in order), then write the buffer to the file.  `ser` is the
prototype's `serialize`, a buffer transformer that can throw; a serialize
exception propagates out before the file is touched. -/
def write (ser : List Char → ρ → Except CsvErr (List Char)) (d : Char)
    (canOpen : Bool) (rows : List ρ) (header : List (List Char)) :
    Except CsvErr (List Char) :=
  match foldExcept ser
      (if header = [] then []
       else seekpEndlL ((header.map (fun h => h ++ [d])).flatten)) rows with
  | .error e => .error e
  | .ok buf => write_buffer_into_file canOpen buf

/-- The fixed pool size `thread_num = 1 << 3` (src/csv.hpp line 28). -/
def threadNum : Nat := 8

/-- The modulus of C++ `unsigned int` arithmetic. -/
def uintMod : Nat := 2 ^ 32

/-- The row indices serialized by each thread of
`csv::experimental::write_async` (src/csv.hpp lines 439-465), computed
with the source's unsigned arithmetic: `chunk_size = rows_num /
thread_num`, `remaining_size = rows_num - chunk_size * thread_num - 1`
(wrapping), and thread `i` runs `while (cur <= end)` — an inclusive upper
bound — from `cur = chunk_size * i` to `end = cur + chunk_size` for
`i < thread_num - 1` and `end = cur + chunk_size + remaining_size`
(wrapping) for the last thread. -/
def writeAsyncIndices (rowsNum : Nat) : List (List Nat) :=
  let chunkSize := rowsNum / threadNum
  let remainingSize := (rowsNum + uintMod - chunkSize * threadNum - 1) % uintMod
  (List.range threadNum).map fun i =>
    let cur := (chunkSize * i) % uintMod
    let e :=
      if i < threadNum - 1 then (cur + chunkSize) % uintMod
      else (cur + chunkSize + remainingSize) % uintMod
    List.range' cur (e + 1 - cur)

/-- Model of `csv::experimental::write_async` (src/csv.hpp lines 424-483).
With fewer rows than threads it falls back to `csv::write`.  Otherwise each
thread serializes its index slice (per `writeAsyncIndices`) into its own
buffer; the threads are joined; then the destination `std::ofstream` is
constructed with no open-check (a path that cannot be opened just leaves
the stream failed, raising nothing), the header names are written each
followed by the delimiter, `seekp(-1, cur) << endl` is issued
unconditionally, and the per-thread buffers are appended in slice order.
`ser` is a total serialize: an exception thrown by `serialize` inside a
worker thread would escape the thread entry function and terminate the
process, which is outside this embedding. -/
def write_async (ser : List Char → ρ → List Char) (d : Char)
    (canOpen : Bool) (rows : List ρ) (header : List (List Char)) :
    Except CsvErr OStream :=
  if rows.length < threadNum then
    (write (fun b r => .ok (ser b r)) d canOpen rows header).map
      (fun buf => { data := buf, failed := false })
  else
    .ok ((((writeAsyncIndices rows.length).map fun idxs =>
        idxs.foldl
          (fun b i =>
            match rows[i]? with
            | some r => ser b r
            | none => b)
          []).foldl OStream.write
      ((OStream.write { data := [], failed := !canOpen }
        ((header.map (fun h => h ++ [d])).flatten)).seekpEndl)))

/-- The character printed for a decimal digit value. -/
def digitChar (n : Nat) : Char := Char.ofNat (48 + n)

/-- Fuelled most-significant-first decimal digit printer; fuel `n + 1`
always suffices since the argument shrinks by a factor of ten each step. -/
def natDigitsF : Nat → Nat → List Char
  | 0, _ => []
  | fuel + 1, n =>
    if n < 10 then [digitChar n]
    else natDigitsF fuel (n / 10) ++ [digitChar (n % 10)]

/-- Decimal representation of a natural number, as produced by the C++
stream insertion operator. -/
def natToDigits (n : Nat) : List Char := natDigitsF (n + 1) n

/-- Decimal representation of an `int`, as produced by `operator<<(int)`
in `person_prototype::serialize` and
`single_type_prototype<int>::serialize`. -/
def intRepr (n : Int) : List Char :=
  if n < 0 then '-' :: natToDigits n.natAbs else natToDigits n.toNat

/-- Value accumulated by `strtol`-style parsing over a digit string. -/
def digitsToNat (ds : List Char) : Nat :=
  ds.foldl (fun a c => a * 10 + (c.toNat - 48)) 0

/-- Optional sign consumption of `strtol` / `num_get`. -/
def stoiSign : List Char → Bool × List Char
  | [] => (false, [])
  | c :: r =>
    if c = '-' then (true, r)
    else if c = '+' then (false, r)
    else (false, c :: r)

/-- The common decimal-integer parse underlying `std::stoi` and
`operator>>(int)`: skip whitespace, consume an optional sign, then consume
a maximal run of decimal digits; no digits means failure. -/
def parseDecInt (s : List Char) : Option Int :=
  if (stoiSign (s.dropWhile Char.isWhitespace)).2.takeWhile Char.isDigit
      = [] then
    none
  else
    some
      (if (stoiSign (s.dropWhile Char.isWhitespace)).1 then
        -(digitsToNat ((stoiSign
          (s.dropWhile Char.isWhitespace)).2.takeWhile Char.isDigit) : Int)
      else
        (digitsToNat ((stoiSign
          (s.dropWhile Char.isWhitespace)).2.takeWhile Char.isDigit) : Int))

/-- Smallest value of a 32-bit C++ `int`, `-(2 ^ 31)`. -/
def intMin : Int := -2147483648

/-- Largest value of a 32-bit C++ `int`, `2 ^ 31 - 1`. -/
def intMax : Int := 2147483647

/-- Model of `std::stoi` as called by
`single_type_prototype<int>::deserialize` (src/csv.hpp line 408): throws
`std::invalid_argument` when no digits can be parsed and
`std::out_of_range` when the parsed value does not fit in `int`. -/
def stoiM (s : List Char) : Except CsvErr Int :=
  match parseDecInt s with
  | none => .error .invalidArgument
  | some v => if v < intMin ∨ intMax < v then .error .outOfRange else .ok v

/-- Model of `std::stof` as called by
`single_type_prototype<float>::deserialize` (src/csv.hpp line 405),
restricted to the integer-literal fragment: cell contents that are an
optional sign followed by decimal digits, on which `strtof` returns the
exactly represented value whenever its magnitude is below `2 ^ 24`.
General binary floating-point parsing and formatting are outside this
embedding; the round-trip theorem only uses the fragment in which both
are exact decimal. -/
def stofFragM (s : List Char) : Except CsvErr Int :=
  match parseDecInt s with
  | none => .error .invalidArgument
  | some v => .ok v

/-- Model of `stream >> p.age` in `person_prototype::deserialize`
(src/prototypes.hpp line 27): parse a decimal integer; on failure the
C++11 `num_get` stores 0, and an out-of-range value is clamped to the
`int` limits. -/
def extractIntVal (s : List Char) : Int :=
  match parseDecInt s with
  | none => 0
  | some v => if v < intMin then intMin else if intMax < v then intMax else v

/-- Model of `csv::experimental::single_type_prototype::serialize`
(src/csv.hpp lines 383-393): an empty row throws `std::underflow_error`;
otherwise every cell is printed (via `pr`) followed by the delimiter, and
the trailing delimiter is overwritten with a newline by
`buffer.seekp(-1, cur) << endl`.  `buf` is the stream contents the row is
appended to. -/
def single_type_serialize (pr : α → List Char) (d : Char) (buf : List Char)
    (data : List α) : Except CsvErr (List Char) :=
  if data.isEmpty then .error .underflow
  else .ok (seekpEndlL (buf ++ (data.map (fun x => pr x ++ [d])).flatten))

/-- Model of `csv::experimental::single_type_prototype<int>::deserialize`
(src/csv.hpp lines 396-418): split the line at the delimiter and convert
every cell with `stoi`; the first conversion failure propagates. -/
def single_type_deserialize_int (d : Char) (line : List Char) :
    Except CsvErr (List Int) :=
  mapExcept stoiM (splitOnChar d line)

/-- Model of
`csv::experimental::single_type_prototype<std::string>::deserialize`:
the cells are kept as strings, no conversion can fail. -/
def single_type_deserialize_str (d : Char) (line : List Char) :
    Except CsvErr (List (List Char)) :=
  .ok (splitOnChar d line)

/-- Model of `csv::experimental::single_type_prototype<float>::deserialize`
on the integer-literal fragment (see `stofFragM`). -/
def single_type_deserialize_float (d : Char) (line : List Char) :
    Except CsvErr (List Int) :=
  mapExcept stofFragM (splitOnChar d line)

/-- Variant of `read_from_buffer` for a deserializer that can throw, such
as `single_type_prototype`'s: the first exception propagates out of the
row loop of src/csv.hpp lines 151-157, the partially built document is
destroyed, and the caller receives only the error. -/
def read_from_buffer_E (fE : List Char → Except CsvErr α) (d : Char)
    (buf : List Char) : Except CsvErr (Document α) :=
  let p := read_header_from_buffer d buf
  match mapExcept fE (getLines p.2) with
  | .error e => .error e
  | .ok rows => .ok { header := p.1, rows := rows }

/-- The user-defined record type of src/prototypes.hpp lines 5-9.  The
`float` column types of the repository examples aside, `age` is a C++
`int`, modelled as an unbounded `Int` with range hypotheses where
printing is involved. -/
structure Person where
  name : List Char
  age : Int
  deriving DecidableEq, Repr

/-- Model of `person_prototype::serialize` (src/prototypes.hpp
lines 16-20): `buffer << name << ',' << age << endl`. -/
def person_serialize (buf : List Char) (p : Person) : List Char :=
  buf ++ p.name ++ ',' :: intRepr p.age ++ ['\n']

/-- Model of `person_prototype::deserialize` (src/prototypes.hpp
lines 23-29): `getline(buffer, name, ',')` then `buffer >> age`. -/
def person_deserialize (line : List Char) : Person :=
  { name := (getlineOnce ',' line).1,
    age := extractIntVal (getlineOnce ',' line).2 }

/-- The cells of a row joined by single delimiter characters with no
trailing delimiter: the shape of one serialized line before its
newline. -/
def joinCells (d : Char) : List (List Char) → List Char
  | [] => []
  | [x] => x
  | x :: xs => x ++ d :: joinCells d xs

theorem splitOnChar_append_cons (d : Char) (x t : List Char) (hx : d ∉ x) :
    splitOnChar d (x ++ d :: t) = x :: splitOnChar d t := by
  induction x with
  | nil =>
    rw [List.nil_append]
    conv_lhs => rw [splitOnChar.eq_def]
    simp
  | cons a x ih =>
    have ha : ¬(a = d) := fun h => hx (by simp [h])
    have hx2 : d ∉ x := fun h => hx (List.mem_cons_of_mem _ h)
    rw [List.cons_append]
    conv_lhs => rw [splitOnChar.eq_def]
    simp only [if_neg ha, ih hx2]

theorem splitOnChar_no_d (d : Char) (l : List Char) (hl : d ∉ l)
    (h0 : l ≠ []) : splitOnChar d l = [l] := by
  induction l with
  | nil => cases h0 rfl
  | cons a x ih =>
    have ha : ¬(a = d) := fun h => hl (by simp [h])
    have hx2 : d ∉ x := fun h => hl (List.mem_cons_of_mem _ h)
    conv_lhs => rw [splitOnChar.eq_def]
    cases hx0 : x with
    | nil => simp [splitOnChar, ha]
    | cons b y =>
      rw [← hx0]
      simp only [if_neg ha, ih hx2 (by rw [hx0]; simp)]

theorem getlineOnce_append_cons (d : Char) (x t : List Char) (hx : d ∉ x) :
    getlineOnce d (x ++ d :: t) = (x, t) := by
  induction x with
  | nil =>
    rw [List.nil_append]
    conv_lhs => rw [getlineOnce.eq_def]
    simp
  | cons a x ih =>
    have ha : ¬(a = d) := fun h => hx (by simp [h])
    have hx2 : d ∉ x := fun h => hx (List.mem_cons_of_mem _ h)
    rw [List.cons_append]
    conv_lhs => rw [getlineOnce.eq_def]
    simp only [if_neg ha, ih hx2]

theorem extendChunk_cons_newline (rest : List Char) :
    extendChunk ('\n' :: rest) = ([], rest) := by
  conv_lhs => rw [extendChunk.eq_def]
  simp

theorem extendChunk_append_newline (x rest : List Char) (hx : '\n' ∉ x) :
    extendChunk (x ++ '\n' :: rest) = (x, rest) := by
  induction x with
  | nil => rw [List.nil_append, extendChunk_cons_newline]
  | cons a x ih =>
    have ha : ¬(a = '\n') := fun h => hx (by simp [h])
    have hx2 : '\n' ∉ x := fun h => hx (List.mem_cons_of_mem _ h)
    rw [List.cons_append]
    conv_lhs => rw [extendChunk.eq_def]
    simp only [if_neg ha]
    cases x with
    | nil =>
      rw [List.nil_append]
      simp [extendChunk_cons_newline]
    | cons b y =>
      have ih2 := ih hx2
      rw [List.cons_append] at ih2
      rw [List.cons_append]
      simp only [ih2]

theorem extendChunk_no_newline (l : List Char) (hl : '\n' ∉ l) (h0 : l ≠ []) :
    extendChunk l = (l.dropLast, []) := by
  induction l with
  | nil => cases h0 rfl
  | cons a x ih =>
    have ha : ¬(a = '\n') := fun h => hl (by simp [h])
    have hx2 : '\n' ∉ x := fun h => hl (List.mem_cons_of_mem _ h)
    conv_lhs => rw [extendChunk.eq_def]
    simp only [if_neg ha]
    cases x with
    | nil => simp
    | cons b y =>
      simp only [ih hx2 (by simp)]
      simp

theorem extendChunk_snd_length_le :
    ∀ l : List Char, (extendChunk l).2.length ≤ l.length
  | [] => by rw [extendChunk.eq_def]
  | c :: rest => by
    conv_lhs => rw [extendChunk.eq_def]
    by_cases hc : c = '\n'
    · simp [hc]
    · simp only [if_neg hc]
      cases rest with
      | nil => simp
      | cons r rs =>
        have h := extendChunk_snd_length_le (r :: rs)
        simp only [List.length_cons] at h ⊢
        omega

theorem extendChunk_snd_length_lt (l : List Char) (h0 : l ≠ []) :
    (extendChunk l).2.length < l.length := by
  cases l with
  | nil => cases h0 rfl
  | cons c rest =>
    conv_lhs => rw [extendChunk.eq_def]
    by_cases hc : c = '\n'
    · simp [hc]
    · simp only [if_neg hc]
      cases rest with
      | nil => simp
      | cons r rs =>
        have h := extendChunk_snd_length_le (r :: rs)
        simp only [List.length_cons] at h ⊢
        omega

theorem splitStep_rem_lt (csz : Nat) (body : List Char) (hb : body ≠ []) :
    (extendChunk (body.drop csz)).2.length < body.length := by
  cases csz with
  | zero => simpa using extendChunk_snd_length_lt body hb
  | succ n =>
    have h1 := extendChunk_snd_length_le (body.drop (n + 1))
    have h2 : (body.drop (n + 1)).length = body.length - (n + 1) :=
      List.length_drop _ _
    have h3 : 0 < body.length := List.length_pos.mpr hb
    omega

theorem splitChunksF_congr (f1 : Nat) : ∀ (f2 csz : Nat) (body : List Char),
    body.length ≤ f1 → body.length ≤ f2 →
    splitChunksF f1 csz body = splitChunksF f2 csz body := by
  induction f1 with
  | zero =>
    intro f2 csz body h1 _
    have hb : body = [] := by
      cases body with
      | nil => rfl
      | cons c cs => simp at h1
    subst hb
    cases f2 <;> rfl
  | succ f1 ih =>
    intro f2 csz body h1 h2
    cases body with
    | nil => cases f2 <;> rfl
    | cons c cs =>
      cases f2 with
      | zero => simp at h2
      | succ f2 =>
        simp only [splitChunksF]
        have hlt := splitStep_rem_lt csz (c :: cs) (by simp)
        simp only [List.length_cons] at hlt h1 h2
        congr 1
        exact ih f2 csz _ (by omega) (by omega)

theorem splitChunks_nil (csz : Nat) : splitChunks csz [] = [] := rfl

theorem bodyOf_nil : bodyOf [] = [] := rfl

theorem bodyOf_cons (l : List Char) (ls : List (List Char)) :
    bodyOf (l :: ls) = l ++ '\n' :: bodyOf ls := by
  simp [bodyOf]

theorem getLines_bodyOf (ls : List (List Char)) (h : ∀ l ∈ ls, '\n' ∉ l) :
    getLines (bodyOf ls) = ls := by
  induction ls with
  | nil => rfl
  | cons l ls ih =>
    rw [bodyOf_cons]
    show splitOnChar '\n' (l ++ '\n' :: bodyOf ls) = l :: ls
    rw [splitOnChar_append_cons '\n' l (bodyOf ls) (h l (by simp))]
    exact congrArg (fun z => l :: z)
      (ih fun x hx => h x (List.mem_cons_of_mem _ hx))

theorem splitChunks_cons (csz : Nat) (body : List Char) (hb : body ≠ []) :
    splitChunks csz body =
      (body.take csz ++ (extendChunk (body.drop csz)).1) ::
        splitChunks csz (extendChunk (body.drop csz)).2 := by
  cases body with
  | nil => cases hb rfl
  | cons c cs =>
    show splitChunksF (c :: cs).length csz (c :: cs) = _
    simp only [List.length_cons, splitChunksF]
    congr 1
    have hlt := splitStep_rem_lt csz (c :: cs) (by simp)
    simp only [List.length_cons] at hlt
    exact splitChunksF_congr cs.length _ csz _ (by omega) (le_refl _)

theorem getLines_append_cons (x t : List Char) (hx : '\n' ∉ x) :
    getLines (x ++ '\n' :: t) = x :: getLines t :=
  splitOnChar_append_cons '\n' x t hx

theorem getLines_no_newline (l : List Char) (hl : '\n' ∉ l) (h0 : l ≠ []) :
    getLines l = [l] :=
  splitOnChar_no_d '\n' l hl h0

theorem firstChunk_spec :
    ∀ (ls : List (List Char)) (csz : Nat), goodLines ls → ls ≠ [] →
    ∃ k, 1 ≤ k ∧ k ≤ ls.length ∧
      getLines ((bodyOf ls).take csz ++
        (extendChunk ((bodyOf ls).drop csz)).1) = ls.take k ∧
      (extendChunk ((bodyOf ls).drop csz)).2 = bodyOf (ls.drop k) := by
  intro ls
  induction ls with
  | nil => intro csz _ h0; cases h0 rfl
  | cons l ls ih =>
    intro csz hg _
    have hl := hg l (by simp)
    have hgtail : goodLines ls := fun x hx => hg x (List.mem_cons_of_mem _ hx)
    rw [bodyOf_cons]
    by_cases hcsz : csz ≤ l.length
    · -- the cut point is inside (or at the end of) the first line:
      -- the chunk is exactly the first line
      have h0 : csz - l.length = 0 := by omega
      have htake : (l ++ '\n' :: bodyOf ls).take csz = l.take csz := by
        rw [List.take_append_eq_append_take, h0, List.take_zero, List.append_nil]
      have hdrop : (l ++ '\n' :: bodyOf ls).drop csz
          = l.drop csz ++ '\n' :: bodyOf ls := by
        rw [List.drop_append_eq_append_drop, h0, List.drop_zero]
      have hnd : '\n' ∉ l.drop csz := fun h => hl.2 (List.drop_subset _ _ h)
      have hext := extendChunk_append_newline (l.drop csz) (bodyOf ls) hnd
      refine ⟨1, le_refl 1, by simp, ?_, ?_⟩
      · rw [htake, hdrop, hext, List.take_append_drop]
        rw [show (l :: ls).take 1 = [l] by simp]
        exact getLines_no_newline l hl.2 hl.1
      · rw [hdrop, hext]
        rfl
    · -- the cut point is past the first line's terminator
      push_neg at hcsz
      have hsucc : csz - l.length = (csz - l.length - 1) + 1 := by omega
      have htake : (l ++ '\n' :: bodyOf ls).take csz
          = l ++ '\n' :: (bodyOf ls).take (csz - l.length - 1) := by
        rw [List.take_append_eq_append_take, List.take_of_length_le (by omega),
          hsucc, List.take_succ_cons]
        simp
      have hdrop : (l ++ '\n' :: bodyOf ls).drop csz
          = (bodyOf ls).drop (csz - l.length - 1) := by
        rw [List.drop_append_eq_append_drop,
          List.drop_eq_nil_of_le (by omega : l.length ≤ csz), List.nil_append,
          hsucc, List.drop_succ_cons]
        simp
      cases ls with
      | nil =>
        have hext : extendChunk ((bodyOf ([] : List (List Char))).drop
            (csz - l.length - 1)) = ([], []) := by
          rw [bodyOf_nil, List.drop_nil, extendChunk.eq_def]
        refine ⟨1, le_refl 1, by simp, ?_, ?_⟩
        · rw [htake, hdrop, hext, bodyOf_nil, List.take_nil, List.append_nil]
          rw [show (l :: ([] : List (List Char))).take 1 = [l] by simp]
          exact getLines_append_cons l [] hl.2
        · rw [hdrop, hext]
          rfl
      | cons m ms =>
        obtain ⟨k, hk1, hk2, hlines, hrem⟩ :=
          ih (csz - l.length - 1) hgtail (by simp)
        refine ⟨k + 1, by omega, ?_, ?_, ?_⟩
        · simp only [List.length_cons] at hk2 ⊢; omega
        · rw [htake, hdrop, List.append_assoc, List.cons_append]
          rw [getLines_append_cons _ _ hl.2, hlines, List.take_succ_cons]
        · rw [hdrop, hrem, List.drop_succ_cons]

theorem splitChunks_lines (csz : Nat) (ls : List (List Char))
    (hg : goodLines ls) :
    ((splitChunks csz (bodyOf ls)).map getLines).flatten = ls := by
  suffices h : ∀ n (ls2 : List (List Char)), ls2.length ≤ n → goodLines ls2 →
      ((splitChunks csz (bodyOf ls2)).map getLines).flatten = ls2 from
    h ls.length ls (le_refl _) hg
  intro n
  induction n with
  | zero =>
    intro ls2 hlen _
    have h2 : ls2 = [] := List.length_eq_zero.mp (Nat.le_zero.mp hlen)
    subst h2; rfl
  | succ n ih =>
    intro ls2 hlen hg2
    cases ls2 with
    | nil => rfl
    | cons l ls0 =>
      have hbne : bodyOf (l :: ls0) ≠ [] := by rw [bodyOf_cons]; simp
      obtain ⟨k, hk1, hk2, hlines, hrem⟩ :=
        firstChunk_spec (l :: ls0) csz hg2 (by simp)
      rw [bodyOf_cons] at hlines hrem ⊢
      rw [splitChunks_cons csz _ (by simp), List.map_cons, List.flatten_cons,
        hlines, hrem]
      rw [ih ((l :: ls0).drop k)
        (by rw [List.length_drop]; simp only [List.length_cons] at hlen ⊢; omega)
        (fun x hx => hg2 x (List.drop_subset _ _ hx))]
      exact List.take_append_drop k (l :: ls0)

theorem read_header_split (d : Char) (hdr rest : List Char)
    (hh : '\n' ∉ hdr) :
    read_header_from_buffer d (hdr ++ '\n' :: rest) = (splitOnChar d hdr, rest) := by
  unfold read_header_from_buffer
  rw [getlineOnce_append_cons '\n' hdr rest hh]

theorem flatten_map_map {γ δ : Type} (f : γ → δ) (g : List Char → List γ) :
    ∀ L : List (List Char),
      (L.map fun x => (g x).map f).flatten = ((L.map g).flatten).map f := by
  intro L
  induction L with
  | nil => rfl
  | cons x L ih =>
    simp only [List.map_cons, List.flatten_cons, List.map_append, ih]

theorem take_append_dropLast_drop (csz : Nat) (l : List Char)
    (h : csz < l.length) :
    l.take csz ++ (l.drop csz).dropLast = l.dropLast := by
  rw [List.dropLast_eq_take, List.dropLast_eq_take, List.length_drop]
  rw [← List.take_add]
  rw [show csz + (l.length - csz - 1) = l.length - 1 by omega]

/-- Claim C1: for every valid input (a newline-free header line followed
by non-empty newline-terminated record lines), the Document produced by
the parallel read path (`read_from_file` with `Method.ASYNC`, i.e.
`read_async_from_buffer`) equals, field for field and in row order, the
Document produced by the sequential path (`Method.DEFAULT`, i.e.
`read_from_buffer`).  The theorem holds for every readsome block size
`csz`, in particular the implementation's fixed `lineChunkTotal`; the pool
size never enters the result, because the final document concatenates the
storage slots in creation order (`runJobs` is the schedule-indexed pool
model), so it also covers a pool larger than the number of chunks
produced. -/
theorem c1_async_read_equals_sequential_read {α : Type} (f : List Char → α)
    (d : Char) (csz : Nat) (hdr : List Char) (hh : '\n' ∉ hdr)
    (ls : List (List Char)) (hg : goodLines ls) :
    read_from_file f d csz true (hdr ++ '\n' :: bodyOf ls) Method.ASYNC
      = read_from_file f d csz true (hdr ++ '\n' :: bodyOf ls) Method.DEFAULT := by
  show Except.ok (read_async_from_buffer f d csz (hdr ++ '\n' :: bodyOf ls))
      = Except.ok (read_from_buffer f d (hdr ++ '\n' :: bodyOf ls))
  congr 1
  simp only [read_async_from_buffer, read_from_buffer,
    read_header_split d hdr (bodyOf ls) hh]
  congr 1
  rw [flatten_map_map f getLines, splitChunks_lines csz ls hg,
    getLines_bodyOf ls fun l hl => (hg l hl).2]

theorem c1_witness :
    '\n' ∉ (['h'] : List Char) ∧
    goodLines [['B','i','n',',','3'], ['B','e','n',',','5']] ∧
    read_from_file (fun l => l) ',' 4 true
        (['h'] ++ '\n' :: bodyOf [['B','i','n',',','3'], ['B','e','n',',','5']])
        Method.ASYNC
      = read_from_file (fun l => l) ',' 4 true
        (['h'] ++ '\n' :: bodyOf [['B','i','n',',','3'], ['B','e','n',',','5']])
        Method.DEFAULT :=
  ⟨by decide, by decide,
    c1_async_read_equals_sequential_read (fun l => l) ',' 4 ['h'] (by decide)
      [['B','i','n',',','3'], ['B','e','n',',','5']] (by decide)⟩

/-- Claim C4 (counterexample): the raw bytes of the chunks do not
concatenate back to the original body — the newline consumed at each
chunk boundary is dropped.  With block size 2 and body `"ab\ncd\n"` the
chunks are `"ab"` and `"cd"`. -/
theorem c4_counterexample :
    (splitChunks 2 ['a','b','\n','c','d','\n']).flatten
      ≠ ['a','b','\n','c','d','\n'] := by decide

/-- Claim C4 (amended): for every body of non-empty newline-terminated
lines and every block size, every chunk parses as a run of complete lines
and the concatenation of the chunks' line lists in chunk order is exactly
the body's line list — no half-line is ever decoded; only the boundary
newline bytes themselves are consumed rather than kept. -/
theorem c4_amended_chunks_preserve_lines (csz : Nat)
    (ls : List (List Char)) (hg : goodLines ls) :
    ((splitChunks csz (bodyOf ls)).map getLines).flatten = ls :=
  splitChunks_lines csz ls hg

theorem c4_witness :
    goodLines [['a','b'], ['c','d']] ∧
    ((splitChunks 2 (bodyOf [['a','b'], ['c','d']])).map getLines).flatten
      = [['a','b'], ['c','d']] :=
  ⟨by decide, c4_amended_chunks_preserve_lines 2 [['a','b'], ['c','d']] (by decide)⟩

/-- Claim C5 (code bug): when the source's last line has no trailing
newline and the chunk boundary falls inside it, the realignment loop
`while (c != '\n' && in_avail())` exits on exhausted input before
appending the character just read, so the final character of the last
line is dropped: at the implementation's block size, a newline-free body
longer than one block decodes to its `dropLast` under the parallel
reader, while the sequential reader returns the full line. -/
theorem c5_unterminated_last_line_truncated (hdr body : List Char)
    (hh : '\n' ∉ hdr) (hb : '\n' ∉ body)
    (hlen : lineChunkTotal < body.length) :
    (read_async_from_buffer (fun l => l) ',' lineChunkTotal
        (hdr ++ '\n' :: body)).rows = [body.dropLast] ∧
    (read_from_buffer (fun l => l) ',' (hdr ++ '\n' :: body)).rows
      = [body] := by
  have hbne : body ≠ [] := by
    intro h; subst h; simp [lineChunkTotal] at hlen
  constructor
  · simp only [read_async_from_buffer,
      read_header_split ',' hdr body hh]
    have hdropne : body.drop lineChunkTotal ≠ [] := by
      have : (body.drop lineChunkTotal).length = body.length - lineChunkTotal :=
        List.length_drop _ _
      intro h
      rw [h] at this
      simp at this
      omega
    have hnd2 : '\n' ∉ body.drop lineChunkTotal :=
      fun h => hb (List.drop_subset _ _ h)
    have hchunks : splitChunks lineChunkTotal body = [body.dropLast] := by
      rw [splitChunks_cons lineChunkTotal body hbne,
        extendChunk_no_newline _ hnd2 hdropne]
      rw [splitChunks_nil]
      rw [take_append_dropLast_drop lineChunkTotal body hlen]
    rw [hchunks]
    have hdlne : body.dropLast ≠ [] := by
      have : body.dropLast.length = body.length - 1 := List.length_dropLast body
      intro h
      rw [h] at this
      simp at this
      simp [lineChunkTotal] at hlen
      omega
    have hdlnd : '\n' ∉ body.dropLast :=
      fun h => hb (List.dropLast_subset body h)
    simp [getLines_no_newline body.dropLast hdlnd hdlne]
  · simp only [read_from_buffer, read_header_split ',' hdr body hh]
    simp [getLines_no_newline body hb hbne]

theorem c5_witness :
    '\n' ∉ (['h'] : List Char) ∧ '\n' ∉ List.replicate 32769 'a' ∧
    lineChunkTotal < (List.replicate 32769 'a').length ∧
    (read_async_from_buffer (fun l => l) ',' lineChunkTotal
        (['h'] ++ '\n' :: List.replicate 32769 'a')).rows
      = [(List.replicate 32769 'a').dropLast] ∧
    (read_from_buffer (fun l => l) ','
        (['h'] ++ '\n' :: List.replicate 32769 'a')).rows
      = [List.replicate 32769 'a'] := by
  have h1 : '\n' ∉ List.replicate 32769 'a' := by
    simp only [List.mem_replicate]; decide
  have h2 : lineChunkTotal < (List.replicate 32769 'a').length := by
    rw [List.length_replicate]; decide
  have h3 := c5_unterminated_last_line_truncated ['h']
    (List.replicate 32769 'a') (by decide) h1 h2
  exact ⟨by decide, h1, h2, h3.1, h3.2⟩

theorem runJobs_foldl_getElem? {α : Type} (dec : List Char → List α)
    (chunks : List (List Char)) :
    ∀ (order : List Nat) (slots : List (List α)),
      slots.length = chunks.length →
      (∀ j ∈ order, j < chunks.length) →
      ∀ k : Nat,
        (order.foldl (fun slots i =>
          match chunks[i]? with
          | some ch => slots.set i (dec ch)
          | none => slots) slots)[k]?
        = if k ∈ order then (chunks[k]?).map dec else slots[k]? := by
  intro order
  induction order with
  | nil => intro slots _ _ k; simp
  | cons i rest ih =>
    intro slots hsl hlt k
    have hi : i < chunks.length := hlt i (by simp)
    rw [List.foldl_cons]
    have hstep : (match chunks[i]? with
        | some ch => slots.set i (dec ch)
        | none => slots) = slots.set i (dec (chunks.get ⟨i, hi⟩)) := by
      rw [List.getElem?_eq_getElem hi]
      rfl
    rw [hstep,
      ih _ (by rw [List.length_set]; exact hsl)
        (fun j hj => hlt j (List.mem_cons_of_mem _ hj)) k]
    by_cases hk : k ∈ rest
    · rw [if_pos hk, if_pos (List.mem_cons_of_mem _ hk)]
    · by_cases hki : k = i
      · subst hki
        rw [if_neg hk, if_pos (List.mem_cons_self k rest)]
        rw [List.getElem?_set_eq_of_lt _ (by rw [hsl]; exact hi)]
        rw [List.getElem?_eq_getElem hi]
        rfl
      · rw [if_neg hk, if_neg (by simp [List.mem_cons, hki, hk])]
        exact List.getElem?_set_ne (fun h => hki h.symm)

theorem runJobs_perm {α : Type} (dec : List Char → List α)
    (chunks : List (List Char)) (order : List Nat)
    (h : order.Perm (List.range chunks.length)) :
    runJobs dec chunks order = chunks.map dec := by
  have hmem : ∀ j ∈ order, j < chunks.length := fun j hj =>
    List.mem_range.mp (h.mem_iff.mp hj)
  apply List.ext_getElem?
  intro k
  unfold runJobs
  rw [runJobs_foldl_getElem? dec chunks order _ (by rw [List.length_replicate]) hmem k]
  by_cases hk : k < chunks.length
  · rw [if_pos (h.mem_iff.mpr (List.mem_range.mpr hk))]
    rw [List.getElem?_map]
  · have hko : k ∉ order := fun hc => hk (hmem k hc)
    rw [if_neg hko]
    rw [List.getElem?_eq_none (by rw [List.length_replicate]; omega),
      List.getElem?_eq_none (by rw [List.length_map]; omega)]

/-- Claim C6: the storage slots are created in the same order the chunks
are produced (`runJobs` starts from one pre-allocated slot per chunk, in
chunk order), and the final rows are the concatenation of the slots in
that creation order regardless of the order in which the jobs are
processed: for every completion schedule that is a permutation of the
jobs, the flattened slots equal the rows of `read_async_from_buffer`, so
shuffling worker completion never changes the output row order. -/
theorem c6_completion_order_independent {α : Type} (f : List Char → α)
    (d : Char) (csz : Nat) (buf : List Char) (order : List Nat)
    (h : order.Perm (List.range
        (splitChunks csz (read_header_from_buffer d buf).2).length)) :
    (runJobs (fun ch => (getLines ch).map f)
        (splitChunks csz (read_header_from_buffer d buf).2) order).flatten
      = (read_async_from_buffer f d csz buf).rows := by
  rw [runJobs_perm _ _ _ h]
  rfl

theorem c6_witness :
    ([1, 0] : List Nat).Perm (List.range
      (splitChunks 2 (read_header_from_buffer ','
        ['h','\n','a','\n','b','\n','c','\n']).2).length) ∧
    (runJobs (fun ch => (getLines ch).map (fun l => l))
        (splitChunks 2 (read_header_from_buffer ','
          ['h','\n','a','\n','b','\n','c','\n']).2) [1, 0]).flatten
      = (read_async_from_buffer (fun l => l) ',' 2
          ['h','\n','a','\n','b','\n','c','\n']).rows :=
  ⟨by decide,
    c6_completion_order_independent (fun l => l) ',' 2
      ['h','\n','a','\n','b','\n','c','\n'] [1, 0] (by decide)⟩

theorem foldExcept_ok {ρ : Type} (g : List Char → ρ → List Char) :
    ∀ (rows : List ρ) (b : List Char),
      foldExcept (fun b r => (Except.ok (g b r) : Except CsvErr (List Char)))
        b rows = .ok (rows.foldl g b) := by
  intro rows
  induction rows with
  | nil => intro b; rfl
  | cons a l ih => intro b; exact ih (g b a)

theorem write_notOpen {ρ : Type} (ser : List Char → ρ → List Char)
    (d : Char) (rows : List ρ) (header : List (List Char)) :
    write (fun b r => .ok (ser b r)) d false rows header
      = .error .ioError := by
  unfold write
  rw [foldExcept_ok]
  rfl

theorem OStream.write_failed (s : OStream) (cs : List Char)
    (h : s.failed = true) : s.write cs = s := by
  simp [OStream.write, h]

theorem OStream.seekpEndl_failed (s : OStream) (h : s.failed = true) :
    s.seekpEndl = s := by
  simp [OStream.seekpEndl, h]

theorem foldl_write_failed :
    ∀ (L : List (List Char)) (s : OStream), s.failed = true →
      L.foldl OStream.write s = s := by
  intro L
  induction L with
  | nil => intro s _; rfl
  | cons x L ih =>
    intro s h
    rw [List.foldl_cons, OStream.write_failed s x h, ih s h]

/-- Claim C2 (code bug): with 8 rows and 8 threads the per-thread loop
`while (cur <= end)` uses an inclusive upper bound, so thread `i` (for
`i < 7`) also serializes the first row of thread `i + 1`'s slice: the
flattened index lists contain boundary rows twice (15 indices instead
of 8), and the bytes actually written contain rows 1 through 7 twice
each.  The unsigned wrap-around of `remaining_size` when `rows_num` is a
multiple of `thread_num` cancels in the last thread's `end`, so the last
slice itself ends at `rows_num - 1`. -/
theorem c2_write_async_slices_overlap :
    (writeAsyncIndices 8).flatten = [0,1,1,2,2,3,3,4,4,5,5,6,6,7,7] ∧
    (writeAsyncIndices 8).flatten ≠ List.range 8 ∧
    (writeAsyncIndices 8).flatten.count 1 = 2 ∧
    write_async (fun b r => b ++ r) ',' true
        [['0'],['1'],['2'],['3'],['4'],['5'],['6'],['7']] [['N']]
      = .ok ⟨['N','\n','0','1','1','2','2','3','3','4','4','5','5','6','6','7','7'],
          false⟩ := by
  refine ⟨by decide, by decide, by decide, by decide⟩

/-- Claim C7 (counterexample): `experimental::write_async` with at least
`thread_num` rows constructs its `std::ofstream` with no open-check and
raises nothing when the path cannot be opened — the call completes
normally with an empty failed stream instead of throwing io_exception,
and the worker threads have already been started and joined by then. -/
theorem c7_counterexample :
    write_async (fun b r => b ++ r ++ ['\n']) ',' false
        (List.replicate 8 (['a'] : List Char)) [['N']] = .ok ⟨[], true⟩ ∧
    write_async (fun b r => b ++ r ++ ['\n']) ',' false
        (List.replicate 8 (['a'] : List Char)) [['N']]
      ≠ .error .ioError := by
  refine ⟨by decide, by decide⟩

/-- Claim C7 (amended): on a path that cannot be opened, every read
(either method) throws io_exception before any worker thread is created;
the sequential `csv::write` throws io_exception (after serializing, since
it opens the file last); `write_async` with fewer rows than threads falls
back to `csv::write` and therefore throws as well; but `write_async` with
at least `thread_num` rows never checks the stream and completes without
raising any error, its workers having already run. -/
theorem c7_amended_io_error {α ρ ρ2 : Type} (f : List Char → α) (d : Char)
    (csz : Nat) (contents : List Char) (m : Method)
    (ser : List Char → ρ → List Char) (d2 : Char) (rows : List ρ)
    (header : List (List Char)) (hrows : threadNum ≤ rows.length)
    (ser2 : List Char → ρ2 → List Char) (d3 : Char) (rows2 : List ρ2)
    (header2 : List (List Char)) (hrows2 : rows2.length < threadNum) :
    read_from_file f d csz false contents m = .error .ioError ∧
    write (fun b r => .ok (ser b r)) d2 false rows header = .error .ioError ∧
    write_async ser2 d3 false rows2 header2 = .error .ioError ∧
    write_async ser d2 false rows header = .ok ⟨[], true⟩ := by
  refine ⟨rfl, write_notOpen ser d2 rows header, ?_, ?_⟩
  · unfold write_async
    rw [if_pos hrows2, write_notOpen ser2 d3 rows2 header2]
    rfl
  · unfold write_async
    rw [if_neg (by omega)]
    have hf : (({ data := [], failed := !false } : OStream)).failed = true := rfl
    rw [OStream.write_failed _ _ hf, OStream.seekpEndl_failed _ hf,
      foldl_write_failed _ _ hf]
    rfl

theorem c7_witness :
    threadNum ≤ (List.replicate 8 (['a'] : List Char)).length ∧
    (List.replicate 3 (['a'] : List Char)).length < threadNum ∧
    (read_from_file (fun l => l) ',' 4 false ['h','\n'] Method.ASYNC
        = .error .ioError ∧
      write (fun b r => .ok (b ++ r ++ ['\n'])) ',' false
          (List.replicate 8 (['a'] : List Char)) [['N']] = .error .ioError ∧
      write_async (fun (b r : List Char) => b ++ r ++ ['\n']) ',' false
          (List.replicate 3 (['a'] : List Char)) [['N']] = .error .ioError ∧
      write_async (fun (b r : List Char) => b ++ r ++ ['\n']) ',' false
          (List.replicate 8 (['a'] : List Char)) [['N']] = .ok ⟨[], true⟩) :=
  ⟨by decide, by decide,
    c7_amended_io_error (fun l => l) ',' 4 ['h','\n'] Method.ASYNC
      (fun b r => b ++ r ++ ['\n']) ',' (List.replicate 8 ['a']) [['N']]
      (by decide)
      (fun b r => b ++ r ++ ['\n']) ',' (List.replicate 3 ['a']) [['N']]
      (by decide)⟩

/-- Claim C8 (code bug): the sequential `csv::write` with the header
omitted writes exactly the encoded rows; but `experimental::write_async`
with at least `thread_num` rows issues `file.seekp(-1, file.cur)`
unconditionally even when the header loop wrote nothing, the seek from
position 0 fails and sets the fail bit, and every subsequent write is a
no-op: the file ends up empty instead of containing the rows. -/
theorem c8_async_empty_header_writes_nothing :
    write (fun (b r : List Char) => .ok (b ++ r ++ ['\n'])) ',' true
        (List.replicate 8 (['a'] : List Char)) []
      = .ok ['a','\n','a','\n','a','\n','a','\n','a','\n','a','\n','a','\n',
          'a','\n'] ∧
    write_async (fun (b r : List Char) => b ++ r ++ ['\n']) ',' true
        (List.replicate 8 (['a'] : List Char)) [] = .ok ⟨[], true⟩ := by
  refine ⟨by decide, by decide⟩

theorem foldExcept_cons_ok {σ α : Type} (g : σ → α → Except CsvErr σ)
    (b b2 : σ) (a : α) (l : List α) (h : g b a = .ok b2) :
    foldExcept g b (a :: l) = foldExcept g b2 l := by
  conv_lhs => rw [foldExcept.eq_def]
  simp only [h]

theorem foldExcept_cons_error {σ α : Type} (g : σ → α → Except CsvErr σ)
    (b : σ) (e : CsvErr) (a : α) (l : List α) (h : g b a = .error e) :
    foldExcept g b (a :: l) = .error e := by
  conv_lhs => rw [foldExcept.eq_def]
  simp only [h]

theorem foldExcept_stp_underflow {β : Type} (pr : β → List Char) (d : Char) :
    ∀ (rows : List (List β)) (b : List Char), [] ∈ rows →
      foldExcept (single_type_serialize pr d) b rows
        = .error .underflow := by
  intro rows
  induction rows with
  | nil => intro b h; cases h
  | cons r rs ih =>
    intro b hmem
    cases hre : r.isEmpty with
    | true =>
      have hr : r = [] := List.isEmpty_iff.mp hre
      subst hr
      rfl
    | false =>
      have hne : ([] : List β) ∈ rs := by
        rcases List.mem_cons.mp hmem with h | h
        · rw [← h] at hre; simp at hre
        · exact h
      rw [foldExcept_cons_ok (single_type_serialize pr d) b
        (seekpEndlL (b ++ (r.map fun x => pr x ++ [d]).flatten)) r rs
        (by unfold single_type_serialize; rw [hre]; rfl)]
      exact ih _ hne

/-- Claim C10: `single_type_prototype::serialize` on a row with zero
fields throws `std::underflow_error` instead of emitting a line, so a
`csv::write` of a document containing an empty row propagates that error
to the caller before the file is written, rather than emitting an empty
line. -/
theorem c10_empty_row_underflow {β γ : Type} (pr : β → List Char) (d : Char)
    (buf : List Char) (pr2 : γ → List Char) (d2 : Char) (canOpen : Bool)
    (rows : List (List γ)) (header : List (List Char)) (hmem : [] ∈ rows) :
    single_type_serialize pr d buf ([] : List β) = .error .underflow ∧
    write (single_type_serialize pr2 d2) d2 canOpen rows header
      = .error .underflow := by
  constructor
  · rfl
  · unfold write
    rw [foldExcept_stp_underflow pr2 d2 rows _ hmem]

theorem c10_witness :
    ([] : List Int) ∈ [[(1 : Int)], []] ∧
    single_type_serialize intRepr ',' [] ([] : List Int)
      = .error .underflow ∧
    write (single_type_serialize intRepr ',') ',' true [[(1 : Int)], []]
        [['N']] = .error .underflow :=
  ⟨by decide,
    (c10_empty_row_underflow intRepr ',' [] intRepr ',' true
      [[(1 : Int)], []] [['N']] (by decide)).1,
    (c10_empty_row_underflow intRepr ',' [] intRepr ',' true
      [[(1 : Int)], []] [['N']] (by decide)).2⟩

/-- Claim C3 (code bug): the code has no FormatError type at all — a
malformed cell makes `std::stoi` throw `std::invalid_argument`.  In the
sequential read that exception propagates to the caller and the partial
document is destroyed (modelled here); in `async_reader::run`
(src/csv.hpp lines 223-242) there is no try/catch, so the same exception
escapes the worker thread's entry function, which in C++ calls
`std::terminate` — it is never captured or re-raised to the caller as the
claim requires. -/
theorem c3_malformed_row_error :
    single_type_deserialize_int ',' ['1', ',', 'x']
      = .error .invalidArgument ∧
    read_from_buffer_E (single_type_deserialize_int ',') ','
        ['A','\n','1',',','x','\n'] = .error .invalidArgument := by
  refine ⟨by decide, by decide⟩

theorem digitChar_toNat (k : Nat) (h : k < 10) :
    (digitChar k).toNat = 48 + k := by
  interval_cases k <;> decide

theorem digitChar_isDigit (k : Nat) (h : k < 10) :
    (digitChar k).isDigit = true := by
  interval_cases k <;> decide

theorem isDigit_ne_dash (c : Char) (h : c.isDigit = true) : ¬(c = '-') := by
  intro heq; subst heq; exact absurd h (by decide)

theorem isDigit_ne_plus (c : Char) (h : c.isDigit = true) : ¬(c = '+') := by
  intro heq; subst heq; exact absurd h (by decide)

theorem isDigit_ne_comma (c : Char) (h : c.isDigit = true) : ¬(c = ',') := by
  intro heq; subst heq; exact absurd h (by decide)

theorem isDigit_ne_newline (c : Char) (h : c.isDigit = true) :
    ¬(c = '\n') := by
  intro heq; subst heq; exact absurd h (by decide)

theorem isDigit_not_ws (c : Char) (h : c.isDigit = true) :
    c.isWhitespace = false := by
  cases hw : c.isWhitespace with
  | false => rfl
  | true =>
    simp only [Char.isWhitespace, Bool.or_eq_true, decide_eq_true_eq] at hw
    rcases hw with ((h1 | h1) | h1) | h1 <;>
      (subst h1; exact absurd h (by decide))

theorem natDigitsF_all_digit :
    ∀ (fuel n : Nat) (c : Char), c ∈ natDigitsF fuel n → c.isDigit = true := by
  intro fuel
  induction fuel with
  | zero => intro n c h; simp [natDigitsF] at h
  | succ fuel ih =>
    intro n c h
    simp only [natDigitsF] at h
    by_cases h10 : n < 10
    · rw [if_pos h10] at h
      rcases List.mem_singleton.mp h with rfl
      exact digitChar_isDigit n h10
    · rw [if_neg h10] at h
      rcases List.mem_append.mp h with h2 | h2
      · exact ih (n / 10) c h2
      · rcases List.mem_singleton.mp h2 with rfl
        exact digitChar_isDigit (n % 10) (Nat.mod_lt n (by omega))

theorem natDigitsF_ne_nil (fuel n : Nat) : natDigitsF (fuel + 1) n ≠ [] := by
  simp only [natDigitsF]
  by_cases h10 : n < 10
  · rw [if_pos h10]; simp
  · rw [if_neg h10]; simp

theorem digitsToNat_append (ds : List Char) (c : Char) :
    digitsToNat (ds ++ [c]) = digitsToNat ds * 10 + (c.toNat - 48) := by
  unfold digitsToNat
  rw [List.foldl_append]
  rfl

theorem natDigitsF_val : ∀ (fuel n : Nat), n < fuel →
    digitsToNat (natDigitsF fuel n) = n := by
  intro fuel
  induction fuel with
  | zero => intro n h; omega
  | succ fuel ih =>
    intro n h
    simp only [natDigitsF]
    by_cases h10 : n < 10
    · rw [if_pos h10]
      rw [show digitsToNat [digitChar n] = 0 * 10 + ((digitChar n).toNat - 48)
        from rfl]
      rw [digitChar_toNat n h10]
      omega
    · rw [if_neg h10]
      have hd : n / 10 < n := Nat.div_lt_self (by omega) (by omega)
      rw [digitsToNat_append, ih (n / 10) (by omega),
        digitChar_toNat (n % 10) (Nat.mod_lt n (by omega))]
      have hdm := Nat.div_add_mod n 10
      omega

theorem natToDigits_val (n : Nat) : digitsToNat (natToDigits n) = n :=
  natDigitsF_val (n + 1) n (Nat.lt_succ_self n)

theorem natToDigits_ne_nil (n : Nat) : natToDigits n ≠ [] :=
  natDigitsF_ne_nil n n

theorem natToDigits_all_digit (n : Nat) (c : Char) (h : c ∈ natToDigits n) :
    c.isDigit = true :=
  natDigitsF_all_digit (n + 1) n c h

theorem takeWhile_all (p : Char → Bool) :
    ∀ l : List Char, (∀ c ∈ l, p c = true) → l.takeWhile p = l := by
  intro l
  induction l with
  | nil => intro _; rfl
  | cons a l ih =>
    intro hall
    rw [List.takeWhile_cons, if_pos (hall a (by simp))]
    rw [ih fun c hc => hall c (List.mem_cons_of_mem _ hc)]

theorem intRepr_mem (n : Int) (c : Char) (h : c ∈ intRepr n) :
    c.isDigit = true ∨ c = '-' := by
  unfold intRepr at h
  by_cases hn : n < 0
  · rw [if_pos hn] at h
    rcases List.mem_cons.mp h with h2 | h2
    · exact Or.inr h2
    · exact Or.inl (natToDigits_all_digit _ c h2)
  · rw [if_neg hn] at h
    exact Or.inl (natToDigits_all_digit _ c h)

theorem intRepr_ne_nil (n : Int) : intRepr n ≠ [] := by
  unfold intRepr
  by_cases hn : n < 0
  · rw [if_pos hn]; simp
  · rw [if_neg hn]; exact natToDigits_ne_nil _

theorem intRepr_no_comma (n : Int) : ',' ∉ intRepr n := by
  intro h
  rcases intRepr_mem n ',' h with h2 | h2
  · exact isDigit_ne_comma ',' h2 rfl
  · exact absurd h2 (by decide)

theorem intRepr_no_newline (n : Int) : '\n' ∉ intRepr n := by
  intro h
  rcases intRepr_mem n '\n' h with h2 | h2
  · exact isDigit_ne_newline '\n' h2 rfl
  · exact absurd h2 (by decide)

theorem parseDecInt_intRepr (n : Int) : parseDecInt (intRepr n) = some n := by
  unfold parseDecInt
  by_cases hn : n < 0
  · have hrepr : intRepr n = '-' :: natToDigits n.natAbs := by
      unfold intRepr; rw [if_pos hn]
    have hdrop : (intRepr n).dropWhile Char.isWhitespace
        = '-' :: natToDigits n.natAbs := by
      rw [hrepr, List.dropWhile_cons, if_neg (by decide)]
    have hsign : stoiSign ((intRepr n).dropWhile Char.isWhitespace)
        = (true, natToDigits n.natAbs) := by
      rw [hdrop]
      conv_lhs => rw [stoiSign.eq_def]
      simp
    simp only [hsign]
    rw [takeWhile_all Char.isDigit (natToDigits n.natAbs)
      (natToDigits_all_digit n.natAbs)]
    rw [if_neg (natToDigits_ne_nil n.natAbs)]
    rw [natToDigits_val]
    simp only [if_true]
    congr 1
    omega
  · have hne := natToDigits_ne_nil n.toNat
    obtain ⟨c, rest, hc⟩ := List.exists_cons_of_ne_nil hne
    have hcd : c.isDigit = true :=
      natToDigits_all_digit n.toNat c
        (by rw [hc]; exact List.mem_cons_self c rest)
    have hrepr : intRepr n = natToDigits n.toNat := by
      unfold intRepr; rw [if_neg hn]
    have hdrop : (intRepr n).dropWhile Char.isWhitespace
        = natToDigits n.toNat := by
      rw [hrepr, hc, List.dropWhile_cons,
        if_neg (by rw [isDigit_not_ws c hcd]; simp)]
    have hsign : stoiSign ((intRepr n).dropWhile Char.isWhitespace)
        = (false, natToDigits n.toNat) := by
      rw [hdrop, hc]
      conv_lhs => rw [stoiSign.eq_def]
      simp only [if_neg (isDigit_ne_dash c hcd),
        if_neg (isDigit_ne_plus c hcd)]
    simp only [hsign]
    rw [takeWhile_all Char.isDigit (natToDigits n.toNat)
      (natToDigits_all_digit n.toNat)]
    rw [if_neg (natToDigits_ne_nil n.toNat)]
    rw [natToDigits_val]
    simp only [Bool.false_eq_true, if_false]
    congr 1
    omega

theorem stoiM_intRepr (n : Int) (h1 : intMin ≤ n) (h2 : n ≤ intMax) :
    stoiM (intRepr n) = .ok n := by
  unfold stoiM
  simp only [parseDecInt_intRepr]
  rw [if_neg (by simp only [intMin, intMax] at h1 h2 ⊢; omega)]

theorem stofFragM_intRepr (n : Int) : stofFragM (intRepr n) = .ok n := by
  unfold stofFragM
  simp only [parseDecInt_intRepr]

theorem extractIntVal_intRepr (n : Int) (h1 : intMin ≤ n) (h2 : n ≤ intMax) :
    extractIntVal (intRepr n) = n := by
  unfold extractIntVal
  simp only [parseDecInt_intRepr]
  rw [if_neg (by simp only [intMin] at h1 ⊢; omega),
    if_neg (by simp only [intMax] at h2 ⊢; omega)]

theorem flatten_cells_ne_nil {β : Type} (pr : β → List Char) (d : Char)
    (x : β) (xs : List β) :
    (((x :: xs).map fun y => pr y ++ [d]).flatten) ≠ [] := by
  simp

theorem dropLast_flatten_cells {β : Type} (pr : β → List Char) (d : Char) :
    ∀ data : List β, data ≠ [] →
      ((data.map fun x => pr x ++ [d]).flatten).dropLast
        = joinCells d (data.map pr) := by
  intro data
  induction data with
  | nil => intro h; cases h rfl
  | cons x xs ih =>
    intro _
    cases xs with
    | nil =>
      simp only [List.map_cons, List.map_nil, List.flatten_cons,
        List.flatten_nil, List.append_nil]
      rw [List.dropLast_concat]
      rfl
    | cons y ys =>
      simp only [List.map_cons, List.flatten_cons] at ih ⊢
      rw [List.dropLast_append_of_ne_nil _ (by simp)]
      rw [ih (by simp)]
      simp only [List.append_assoc, List.singleton_append]
      rfl

theorem sts_ok {β : Type} (pr : β → List Char) (d : Char) (data : List β)
    (hne : data ≠ []) :
    single_type_serialize pr d [] data
      = .ok (joinCells d (data.map pr) ++ ['\n']) := by
  cases data with
  | nil => cases hne rfl
  | cons x xs =>
    unfold single_type_serialize
    rw [if_neg (by simp)]
    unfold seekpEndlL
    rw [List.nil_append, if_neg (flatten_cells_ne_nil pr d x xs)]
    rw [dropLast_flatten_cells pr d (x :: xs) (by simp)]

theorem splitOnChar_joinCells (d : Char) :
    ∀ cells : List (List Char), (∀ x ∈ cells, x ≠ [] ∧ d ∉ x) → cells ≠ [] →
      splitOnChar d (joinCells d cells) = cells := by
  intro cells
  induction cells with
  | nil => intro _ h; cases h rfl
  | cons x xs ih =>
    intro hall _
    cases xs with
    | nil =>
      rw [show joinCells d [x] = x from rfl]
      exact splitOnChar_no_d d x (hall x (by simp)).2 (hall x (by simp)).1
    | cons y ys =>
      rw [show joinCells d (x :: y :: ys) = x ++ d :: joinCells d (y :: ys)
        from rfl]
      rw [splitOnChar_append_cons d x _ (hall x (by simp)).2]
      rw [ih (fun z hz => hall z (by simp [hz])) (by simp)]

theorem not_mem_joinCells (ch d : Char) (hch : ¬(ch = d)) :
    ∀ cells : List (List Char), (∀ x ∈ cells, ch ∉ x) →
      ch ∉ joinCells d cells := by
  intro cells
  induction cells with
  | nil => intro _; simp [joinCells]
  | cons x xs ih =>
    intro hall
    cases xs with
    | nil => exact hall x (by simp)
    | cons y ys =>
      rw [show joinCells d (x :: y :: ys) = x ++ d :: joinCells d (y :: ys)
        from rfl]
      intro hmem
      rcases List.mem_append.mp hmem with h | h
      · exact hall x (by simp) h
      · rcases List.mem_cons.mp h with h2 | h2
        · exact hch h2
        · exact ih (fun z hz => hall z (by simp [hz])) h2

theorem mapExcept_roundtrip {β : Type} (g : List Char → Except CsvErr β)
    (pr : β → List Char) :
    ∀ l : List β, (∀ x ∈ l, g (pr x) = .ok x) →
      mapExcept g (l.map pr) = .ok l := by
  intro l
  induction l with
  | nil => intro _; rfl
  | cons x xs ih =>
    intro hall
    rw [List.map_cons]
    conv_lhs => rw [mapExcept.eq_def]
    simp only [hall x (by simp), ih fun y hy => hall y (by simp [hy])]

theorem mapExcept_singleton {α β : Type} (g : α → Except CsvErr β) (x : α)
    (b : β) (h : g x = .ok b) : mapExcept g [x] = .ok [b] := by
  conv_lhs => rw [mapExcept.eq_def]
  simp only [h]
  rfl

theorem stp_deser_int_line (ints : List Int) (h0 : ints ≠ [])
    (hall : ∀ x ∈ ints, intMin ≤ x ∧ x ≤ intMax) :
    single_type_deserialize_int ',' (joinCells ',' (ints.map intRepr))
      = .ok ints := by
  unfold single_type_deserialize_int
  rw [splitOnChar_joinCells ',' (ints.map intRepr)
    (fun x hx => by
      obtain ⟨m, _, rfl⟩ := List.mem_map.mp hx
      exact ⟨intRepr_ne_nil m, intRepr_no_comma m⟩)
    (by simp [h0])]
  exact mapExcept_roundtrip stoiM intRepr ints
    fun x hx => stoiM_intRepr x (hall x hx).1 (hall x hx).2

theorem stp_deser_float_line (flts : List Int) (h0 : flts ≠ []) :
    single_type_deserialize_float ',' (joinCells ',' (flts.map intRepr))
      = .ok flts := by
  unfold single_type_deserialize_float
  rw [splitOnChar_joinCells ',' (flts.map intRepr)
    (fun x hx => by
      obtain ⟨m, _, rfl⟩ := List.mem_map.mp hx
      exact ⟨intRepr_ne_nil m, intRepr_no_comma m⟩)
    (by simp [h0])]
  exact mapExcept_roundtrip stofFragM intRepr flts
    fun x _ => stofFragM_intRepr x

/-- Claim C9: deserialize after serialize is the identity on
representative records of every supported field type: rows of
`single_type_prototype<int>` (any value fitting a 32-bit int), rows of
`single_type_prototype<std::string>` (non-empty cells containing neither
the delimiter nor a newline), rows of `single_type_prototype<float>` on
the integer-valued fragment of magnitude below a million — where the
default ostream formatting and `stof` are both exact decimal, so the
model is faithful; general binary floating point is outside the
embedding — and `person_prototype` records (name without delimiter or
newline, 32-bit age).  Serialize terminates the line with a newline and
deserialize receives the getline-split of that output, exactly as in the
read paths. -/
theorem c9_roundtrip
    (ints : List Int) (hi0 : ints ≠ [])
    (hir : ∀ x ∈ ints, intMin ≤ x ∧ x ≤ intMax)
    (strs : List (List Char)) (hs0 : strs ≠ [])
    (hsc : ∀ s ∈ strs, s ≠ [] ∧ ',' ∉ s ∧ '\n' ∉ s)
    (flts : List Int) (hf0 : flts ≠ [])
    (hfr : ∀ x ∈ flts, -1000000 < x ∧ x < 1000000)
    (p : Person) (hpn : ',' ∉ p.name ∧ '\n' ∉ p.name)
    (hpa : intMin ≤ p.age ∧ p.age ≤ intMax) :
    (single_type_serialize intRepr ',' [] ints).bind
        (fun out => mapExcept (single_type_deserialize_int ',') (getLines out))
      = .ok [ints] ∧
    (single_type_serialize id ',' [] strs).bind
        (fun out => mapExcept (single_type_deserialize_str ',') (getLines out))
      = .ok [strs] ∧
    (single_type_serialize intRepr ',' [] flts).bind
        (fun out =>
          mapExcept (single_type_deserialize_float ',') (getLines out))
      = .ok [flts] ∧
    (getLines (person_serialize [] p)).map person_deserialize = [p] := by
  refine ⟨?_, ?_, ?_, ?_⟩
  · rw [sts_ok intRepr ',' ints hi0]
    show mapExcept (single_type_deserialize_int ',')
      (getLines (joinCells ',' (ints.map intRepr) ++ ['\n'])) = .ok [ints]
    have hnl : '\n' ∉ joinCells ',' (ints.map intRepr) :=
      not_mem_joinCells '\n' ',' (by decide) _ fun x hx => by
        obtain ⟨m, _, rfl⟩ := List.mem_map.mp hx
        exact intRepr_no_newline m
    rw [getLines_append_cons _ [] hnl]
    exact mapExcept_singleton _ _ ints (stp_deser_int_line ints hi0 hir)
  · rw [sts_ok id ',' strs hs0]
    show mapExcept (single_type_deserialize_str ',')
      (getLines (joinCells ',' (strs.map id) ++ ['\n'])) = .ok [strs]
    rw [List.map_id]
    have hnl : '\n' ∉ joinCells ',' strs :=
      not_mem_joinCells '\n' ',' (by decide) strs fun s hs => (hsc s hs).2.2
    rw [getLines_append_cons _ [] hnl]
    apply mapExcept_singleton
    unfold single_type_deserialize_str
    rw [splitOnChar_joinCells ',' strs
      (fun s hs => ⟨(hsc s hs).1, (hsc s hs).2.1⟩) hs0]
  · rw [sts_ok intRepr ',' flts hf0]
    show mapExcept (single_type_deserialize_float ',')
      (getLines (joinCells ',' (flts.map intRepr) ++ ['\n'])) = .ok [flts]
    have hnl : '\n' ∉ joinCells ',' (flts.map intRepr) :=
      not_mem_joinCells '\n' ',' (by decide) _ fun x hx => by
        obtain ⟨m, _, rfl⟩ := List.mem_map.mp hx
        exact intRepr_no_newline m
    rw [getLines_append_cons _ [] hnl]
    exact mapExcept_singleton _ _ flts (stp_deser_float_line flts hf0)
  · obtain ⟨nm, ag⟩ := p
    have hnl : '\n' ∉ nm ++ ',' :: intRepr ag := by
      intro h
      rcases List.mem_append.mp h with h2 | h2
      · exact hpn.2 h2
      · rcases List.mem_cons.mp h2 with h3 | h3
        · exact absurd h3 (by decide)
        · exact intRepr_no_newline ag h3
    have hform : person_serialize [] ⟨nm, ag⟩
        = (nm ++ ',' :: intRepr ag) ++ '\n' :: [] := by
      unfold person_serialize
      simp
    rw [hform, getLines_append_cons _ [] hnl]
    rw [show getLines [] = [] from rfl]
    rw [List.map_cons, List.map_nil]
    congr 1
    unfold person_deserialize
    rw [getlineOnce_append_cons ',' nm _ hpn.1]
    rw [extractIntVal_intRepr ag hpa.1 hpa.2]

theorem c9_witness :
    (([(3 : Int), -12] : List Int) ≠ [] ∧
      (∀ x ∈ ([(3 : Int), -12] : List Int), intMin ≤ x ∧ x ≤ intMax)) ∧
    (([['h','i']] : List (List Char)) ≠ [] ∧
      (∀ s ∈ ([['h','i']] : List (List Char)),
        s ≠ [] ∧ ',' ∉ s ∧ '\n' ∉ s)) ∧
    (([(2 : Int)] : List Int) ≠ [] ∧
      (∀ x ∈ ([(2 : Int)] : List Int), -1000000 < x ∧ x < 1000000)) ∧
    (',' ∉ (⟨['B','o','b'], 42⟩ : Person).name ∧
      '\n' ∉ (⟨['B','o','b'], 42⟩ : Person).name) ∧
    (intMin ≤ (⟨['B','o','b'], 42⟩ : Person).age ∧
      (⟨['B','o','b'], 42⟩ : Person).age ≤ intMax) ∧
    ((single_type_serialize intRepr ',' [] [(3 : Int), -12]).bind
        (fun out => mapExcept (single_type_deserialize_int ',') (getLines out))
      = .ok [[(3 : Int), -12]] ∧
      (single_type_serialize id ',' [] [['h','i']]).bind
        (fun out => mapExcept (single_type_deserialize_str ',') (getLines out))
      = .ok [[['h','i']]] ∧
      (single_type_serialize intRepr ',' [] [(2 : Int)]).bind
        (fun out =>
          mapExcept (single_type_deserialize_float ',') (getLines out))
      = .ok [[(2 : Int)]] ∧
      (getLines (person_serialize [] ⟨['B','o','b'], 42⟩)).map
        person_deserialize = [⟨['B','o','b'], 42⟩]) :=
  ⟨⟨by decide, by decide⟩, ⟨by decide, by decide⟩, ⟨by decide, by decide⟩,
    by decide, by decide,
    c9_roundtrip [3, -12] (by decide) (by decide) [['h','i']] (by decide)
      (by decide) [2] (by decide) (by decide) ⟨['B','o','b'], 42⟩ (by decide)
      (by decide)⟩
